import Mathlib

/-!
Shallow embedding of the zk-battleship repository: the `BoardVerifier`
constraint generation of `src/constraints.rs` and the game-loop functions of
`src/main.rs`.  Machine integers (`u8`, `usize`) are modelled as `Nat`s with
their range bounds carried as hypotheses; arithmetic of the BLS12-381 scalar
field `ConstraintF` is `Nat` arithmetic reduced `% pBLS` at every field
operation, mirroring `FpVar`.  The external Blake2s commitment primitive
(`Commitment::commit` and its in-circuit gadget `CommGadget`) and the
byte-to-field packing of the proof backend (`ToConstraintField` /
`UInt8::new_input_vec`) are outside the repository and appear as abstract
function parameters `commit` and `tfe`.  A Rust panic (`unwrap` of `None`,
slice index out of bounds, `copy_from_slice` length mismatch, missing stdin
input) is modelled as `none`.
-/

namespace ZkBattleship

/-- Order of the scalar field of BLS12-381, the field `ConstraintF` over which
the circuit of `constraints.rs` is synthesised. -/
def pBLS : Nat :=
  52435875175126190479447740508185965837690552500527637822603658699938581184513

/-- Equality of two field elements represented as `Nat`s, as decided by
`FpVar::is_eq`: both are reduced into the field first. -/
def fEq (a b : Nat) : Bool := a % pBLS == b % pBLS

/-- The circuit struct of `constraints.rs`: public `ships`, `b_size` (both
`u8`) and `commitments`; private witnesses `board` (one `u8` per cell) and
`rng_in` (32 bytes of blinding randomness per cell). -/
structure BoardVerifier where
  ships : Nat
  b_size : Nat
  commitments : List (List Nat)
  board : Option (List Nat)
  rng_in : Option (List (List Nat))

/-- The `board_sum` accumulation loop of `generate_constraints`: field
addition of every cell of the witnessed board, starting from `FpVar::zero()`. -/
def boardSumF (board : List Nat) : Nat :=
  board.foldl (fun a c => (a + c) % pBLS) 0

/-- The `board_len` accumulation of the same loop: one `FpVar::one()` added
per cell of the witnessed board. -/
def boardLenF (board : List Nat) : Nat :=
  board.foldl (fun a _ => (a + 1) % pBLS) 0

/-- The `values_are_valid` fold of `generate_constraints`: starting from
`Boolean::TRUE`, conjoin `i.is_zero() || i.is_one()` for every cell. -/
def valuesAreValid (board : List Nat) : Bool :=
  board.foldl (fun acc c => acc && (fEq c 0 || fEq c 1)) true

/-- The per-cell commitment constraints of `generate_constraints` (lines
88-100): for every `i` below the board length, the publicly input commitment
bytes `commitments[i]` must equal the in-circuit recomputation
`commit(board[i], rng_in[i])`. -/
def commitmentsOk (commit : Nat → List Nat → List Nat) (board : List Nat)
    (rng comms : List (List Nat)) : Bool :=
  (List.range board.length).all fun i =>
    comms.getD i [] == commit (board.getD i 0) (rng.getD i [])

/-- `BoardVerifier::generate_constraints`.  Returns `none` on a panic: the
`unwrap` of a missing `board` or `rng_in`, or the out-of-bounds indexing of
`all_rng_witness[i]` / `all_comm_witness[i]` when those vectors are shorter
than the board.  Otherwise returns whether the generated constraint system is
satisfied by the given assignment (the conjunction of the `enforce_equal`
calls of lines 98-104) together with the list of public input field elements
in allocation order: `ships`, `b_size`, then the field-element packing of
each commitment's bytes in iteration order. -/
def generate_constraints (commit : Nat → List Nat → List Nat)
    (tfe : List Nat → List Nat) (bv : BoardVerifier) : Option (Bool × List Nat) :=
  match bv.board, bv.rng_in with
  | some board, some rng =>
    if board.length ≤ rng.length ∧ board.length ≤ bv.commitments.length then
      some (commitmentsOk commit board rng bv.commitments
              && fEq bv.ships (boardSumF board)
              && valuesAreValid board
              && fEq bv.b_size (boardLenF board),
            bv.ships % pBLS :: bv.b_size % pBLS :: (bv.commitments.map tfe).flatten)
    else none
  | _, _ => none

/-- `generate_commitments` of `main.rs`: one digest
`commit(board[i], randomness[i])` per board cell.  `none` models the panics:
`randomness[i]` indexed out of bounds, or `copy_from_slice` into `[u8; 32]`
from a randomness entry that is not exactly 32 bytes. -/
def generate_commitments (commit : Nat → List Nat → List Nat)
    (board : List Nat) (randomness : List (List Nat)) : Option (List (List Nat)) :=
  if board.length ≤ randomness.length
      ∧ ∀ i < board.length, (randomness.getD i []).length = 32 then
    some ((List.range board.length).map fun i =>
      commit (board.getD i 0) (randomness.getD i []))
  else none

/-- `verify_move` of `main.rs`: recompute the commitment from the revealed
cell value and randomness and compare byte-for-byte with the stored digest.
`some true` is the "commitment is valid" path (play continues), `some false`
the "tried to cheat" path (the process exits, the attacker wins).  `none`
models the `copy_from_slice` panics when the revealed randomness or the
stored commitment is not exactly 32 bytes. -/
def verify_move (commit : Nat → List Nat → List Nat) (ship : Nat)
    (randomness commitment : List Nat) : Option Bool :=
  if randomness.length = 32 ∧ commitment.length = 32 then
    some (commit ship randomness == commitment)
  else none

/-- The public-input vector built by `verify_initial_proof` of `main.rs`
(lines 196-203): push `Fr::from(ships)`, push `Fr::from(b_size)`, then for
each commitment in order append its field-element packing. -/
def verify_initial_proof_inputs (tfe : List Nat → List Nat)
    (commitments : List (List Nat)) (ships b_size : Nat) : List Nat :=
  commitments.foldl (fun inputs c => inputs ++ tfe c) [ships % pBLS, b_size % pBLS]

/-- `place_battleships` of `main.rs`: one stdin input per ship.  A target
strictly greater than the board length is rejected with a message and the
iteration (and the ship) is consumed; a target indexing an empty cell sets it
to 1; a target indexing an occupied cell does nothing.  `none` models the
panics: a target equal to `board.len()` passes the `target > board.len()`
guard and reaches `board[target]`, and a missing input fails the
`read_line`/`parse` unwraps. -/
def place_battleships (board : List Nat) (targets : List Nat) (num_ships : Nat) :
    Option (List Nat) :=
  match num_ships, targets with
  | 0, _ => some board
  | _ + 1, [] => none
  | n + 1, t :: rest =>
    if t > board.length then
      place_battleships board rest n
    else if h : t < board.length then
      if board.get ⟨t, h⟩ = 0 then
        place_battleships (board.set t 1) rest n
      else
        place_battleships board rest n
    else none

/-- Outcome of one call to `perform_turn`. -/
inductive TurnOutcome where
  | alreadyAttacked
  | hit
  | miss
  | cheatDetected
  deriving DecidableEq

/-- `perform_turn` of `main.rs`: the attacker picks tile `t`; a tile whose
view-board entry is nonzero is rejected before anything else; otherwise the
defender's cell decides hit or miss, `verify_move` checks the opening, and
the boards are updated.  The result carries the defender's board, the
attacker's view board, whether `verify_move` was invoked, and the outcome.
`none` models the unguarded index panics (`view_board[t]`, `p_board[t]`,
`target_randomness[t]`, `target_commitment[t]`) and a panic inside
`verify_move`. -/
def perform_turn (commit : Nat → List Nat → List Nat)
    (p_board view_board : List Nat) (rand comms : List (List Nat)) (t : Nat) :
    Option (List Nat × List Nat × Bool × TurnOutcome) :=
  if ht : t < view_board.length then
    if view_board.get ⟨t, ht⟩ ≠ 0 then
      some (p_board, view_board, false, TurnOutcome.alreadyAttacked)
    else if hp : t < p_board.length then
      if hr : t < rand.length then
        if hc : t < comms.length then
          if p_board.get ⟨t, hp⟩ = 1 then
            match verify_move commit 1 (rand.get ⟨t, hr⟩) (comms.get ⟨t, hc⟩) with
            | none => none
            | some false => some (p_board, view_board, true, TurnOutcome.cheatDetected)
            | some true =>
              some (p_board.set t 0, view_board.set t 2, true, TurnOutcome.hit)
          else
            match verify_move commit 0 (rand.get ⟨t, hr⟩) (comms.get ⟨t, hc⟩) with
            | none => none
            | some false => some (p_board, view_board, true, TurnOutcome.cheatDetected)
            | some true => some (p_board, view_board.set t 1, true, TurnOutcome.miss)
        else none
      else none
    else none
  else none

/-- Observable setup-phase events of `main` (lines 44-64 of `main.rs`). -/
inductive GameEvent where
  | generatingProof (player : Nat)
  | verifyingProof
  | proofWasValid
  | proofWasNotValid
  | enteredPlayLoop
  deriving DecidableEq

/-- The control flow of `main` between proof generation and the turn loop
(lines 44-64): each player's verification result selects only the printed
message, and the `loop` is entered unconditionally afterwards. -/
def main_setup_flow (res_a res_b : Bool) : List GameEvent :=
  [GameEvent.generatingProof 1, GameEvent.verifyingProof]
    ++ (if res_a then [GameEvent.proofWasValid] else [GameEvent.proofWasNotValid])
    ++ [GameEvent.generatingProof 2, GameEvent.verifyingProof]
    ++ (if res_b then [GameEvent.proofWasValid] else [GameEvent.proofWasNotValid])
    ++ [GameEvent.enteredPlayLoop]

/-! Helper lemmas about the circuit folds. -/

theorem foldl_mod_add (l : List Nat) (s : Nat) :
    l.foldl (fun a c => (a + c) % pBLS) (s % pBLS) = (s + l.sum) % pBLS := by
  induction l generalizing s with
  | nil => simp
  | cons c tl ih =>
    simp only [List.foldl_cons, List.sum_cons]
    rw [Nat.mod_add_mod, ih (s + c), Nat.add_assoc]

theorem boardSumF_eq (board : List Nat) : boardSumF board = board.sum % pBLS := by
  have h := foldl_mod_add board 0
  simpa [boardSumF] using h

theorem foldl_mod_add_one (l : List Nat) (s : Nat) :
    l.foldl (fun a _ => (a + 1) % pBLS) (s % pBLS) = (s + l.length) % pBLS := by
  induction l generalizing s with
  | nil => simp
  | cons c tl ih =>
    simp only [List.foldl_cons, List.length_cons]
    rw [Nat.mod_add_mod, ih (s + 1)]
    ring_nf

theorem boardLenF_eq (board : List Nat) : boardLenF board = board.length % pBLS := by
  have h := foldl_mod_add_one board 0
  simpa [boardLenF] using h

theorem foldl_and_eq (f : Nat → Bool) (l : List Nat) (b : Bool) :
    l.foldl (fun acc c => acc && f c) b = (b && l.all f) := by
  induction l generalizing b with
  | nil => simp
  | cons c tl ih =>
    simp only [List.foldl_cons, List.all_cons, ih, Bool.and_assoc]

theorem valuesAreValid_eq_all (board : List Nat) :
    valuesAreValid board = board.all (fun c => fEq c 0 || fEq c 1) := by
  simpa [valuesAreValid] using foldl_and_eq (fun c => fEq c 0 || fEq c 1) board true

theorem fEq_true_iff (a b : Nat) (ha : a < pBLS) (hb : b < pBLS) :
    fEq a b = true ↔ a = b := by
  simp only [fEq, beq_iff_eq, Nat.mod_eq_of_lt ha, Nat.mod_eq_of_lt hb]

theorem foldl_append_flatten (f : List Nat → List Nat) (l : List (List Nat))
    (init : List Nat) :
    l.foldl (fun acc c => acc ++ f c) init = init ++ (l.map f).flatten := by
  induction l generalizing init with
  | nil => simp
  | cons c tl ih =>
    simp only [List.foldl_cons, List.map_cons, List.flatten_cons, ih (init ++ f c),
      List.append_assoc]

theorem getD_zipWith (f : Nat → List Nat → List Nat) :
    ∀ (a : List Nat) (b : List (List Nat)) (i : Nat), i < a.length → i < b.length →
      (List.zipWith f a b).getD i [] = f (a.getD i 0) (b.getD i []) := by
  intro a
  induction a with
  | nil => intro b i h _; simp at h
  | cons x xs ih =>
    intro b i ha hb
    match b, i with
    | [], _ => simp at hb
    | y :: ys, 0 => simp [List.zipWith]
    | y :: ys, j + 1 =>
      simp only [List.zipWith, List.getD_cons_succ]
      exact ih ys j (Nat.lt_of_succ_lt_succ ha) (Nat.lt_of_succ_lt_succ hb)

theorem commitmentsOk_of_derived (commit : Nat → List Nat → List Nat)
    (board : List Nat) (rng : List (List Nat))
    (hlen : board.length ≤ rng.length) :
    commitmentsOk commit board rng (List.zipWith commit board rng) = true := by
  simp only [commitmentsOk, List.all_eq_true, List.mem_range]
  intro i hi
  rw [getD_zipWith commit board rng i hi (Nat.lt_of_lt_of_le hi hlen)]
  exact beq_self_eq_true _

theorem pBLS_gt_256 : (256 : Nat) < pBLS := by decide

theorem one_mod_pBLS : 1 % pBLS = 1 := Nat.mod_eq_of_lt (by decide)

theorem sum_lt_pBLS (board : List Nat) (hu8 : ∀ c ∈ board, c < 256)
    (hlen : board.length < 2 ^ 64) : board.sum < pBLS := by
  have h1 : board.sum ≤ board.length * 255 := by
    have h := List.sum_le_card_nsmul board 255 (fun x hx => Nat.lt_succ_iff.mp (hu8 x hx))
    simpa [smul_eq_mul] using h
  have h2 : board.length * 255 < 2 ^ 64 * 255 :=
    Nat.mul_lt_mul_of_lt_of_le hlen (Nat.le_refl 255) (by norm_num)
  have h3 : 2 ^ 64 * 255 < pBLS := by decide
  omega

/-- C1: circuit completeness.  For every board whose length equals the
declared `b_size`, whose every cell is 0 or 1, whose cell sum equals the
declared `ships`, and whose public commitments are derived cell by cell as
`commit(board[i], rng_in[i])`, the constraint system generated by
`BoardVerifier::generate_constraints` is satisfied. -/
theorem board_verifier_completeness (commit : Nat → List Nat → List Nat)
    (tfe : List Nat → List Nat) (bv : BoardVerifier) (board : List Nat)
    (rng : List (List Nat))
    (hb : bv.board = some board) (hr : bv.rng_in = some rng)
    (hrlen : rng.length = board.length)
    (hcells : ∀ c ∈ board, c = 0 ∨ c = 1)
    (hsum : bv.ships = board.sum)
    (hsize : bv.b_size = board.length)
    (hsize8 : bv.b_size < 256)
    (hcomm : bv.commitments = List.zipWith commit board rng) :
    (generate_constraints commit tfe bv).map Prod.fst = some true := by
  have hlen256 : board.length < 256 := hsize ▸ hsize8
  have hcl : board.length ≤ bv.commitments.length := by
    rw [hcomm, List.length_zipWith, hrlen, Nat.min_self]
  have hsumle : board.sum ≤ board.length := by
    have h := List.sum_le_card_nsmul board 1
      (fun x hx => by rcases hcells x hx with h0 | h1 <;> omega)
    simpa [smul_eq_mul] using h
  have hslt : board.sum < pBLS :=
    lt_trans (Nat.lt_of_le_of_lt hsumle hlen256) pBLS_gt_256
  have hllt : board.length < pBLS := lt_trans hlen256 pBLS_gt_256
  simp only [generate_constraints, hb, hr]
  rw [if_pos ⟨Nat.le_of_eq hrlen.symm, hcl⟩]
  simp only [Option.map_some', Option.some.injEq]
  have hA : commitmentsOk commit board rng bv.commitments = true := by
    rw [hcomm]; exact commitmentsOk_of_derived commit board rng (Nat.le_of_eq hrlen.symm)
  have hB : fEq bv.ships (boardSumF board) = true := by
    rw [hsum, boardSumF_eq, Nat.mod_eq_of_lt hslt]
    simp [fEq]
  have hC : valuesAreValid board = true := by
    rw [valuesAreValid_eq_all]
    refine List.all_eq_true.mpr fun c hc => ?_
    rcases hcells c hc with rfl | rfl <;> simp [fEq]
  have hD : fEq bv.b_size (boardLenF board) = true := by
    rw [hsize, boardLenF_eq, Nat.mod_eq_of_lt hllt]
    simp [fEq]
  rw [hA, hB, hC, hD]
  rfl

/-- Witness for C1 at the two boundary instances of the claim: the all-zero
9-cell board with `ships = 0` and the all-one 9-cell board with
`ships = 9 = b_size` both satisfy the circuit (with a concrete stand-in for
the external commitment function). -/
theorem board_verifier_completeness_witness :
    (generate_constraints (fun v r => v :: r) id
      ⟨0, 9, List.zipWith (fun v r => v :: r) (List.replicate 9 0) (List.replicate 9 []),
        some (List.replicate 9 0), some (List.replicate 9 [])⟩).map Prod.fst = some true
    ∧ (generate_constraints (fun v r => v :: r) id
      ⟨9, 9, List.zipWith (fun v r => v :: r) (List.replicate 9 1) (List.replicate 9 []),
        some (List.replicate 9 1), some (List.replicate 9 [])⟩).map Prod.fst = some true := by
  constructor
  · exact board_verifier_completeness _ _ _ (List.replicate 9 0) (List.replicate 9 [])
      rfl rfl (by decide) (by decide) (by decide) (by decide) (by decide) rfl
  · exact board_verifier_completeness _ _ _ (List.replicate 9 1) (List.replicate 9 [])
      rfl rfl (by decide) (by decide) (by decide) (by decide) (by decide) rfl

/-- C2: range-check soundness.  Whenever the witnessed board contains a cell
whose byte value is outside {0, 1}, the constraint system is unsatisfied,
whatever `ships` (and the other public inputs) declare. -/
theorem range_check_soundness (commit : Nat → List Nat → List Nat)
    (tfe : List Nat → List Nat) (bv : BoardVerifier) (board : List Nat)
    (rng : List (List Nat))
    (hb : bv.board = some board) (hr : bv.rng_in = some rng)
    (h1 : board.length ≤ rng.length) (h2 : board.length ≤ bv.commitments.length)
    (hu8 : ∀ c ∈ board, c < 256)
    (hbad : ∃ c ∈ board, c ≠ 0 ∧ c ≠ 1) :
    (generate_constraints commit tfe bv).map Prod.fst = some false := by
  rcases hbad with ⟨c, hc, hc0, hc1⟩
  have hcp : c % pBLS = c := Nat.mod_eq_of_lt (lt_trans (hu8 c hc) pBLS_gt_256)
  simp only [generate_constraints, hb, hr]
  rw [if_pos ⟨h1, h2⟩]
  simp only [Option.map_some', Option.some.injEq]
  have hv : valuesAreValid board = false := by
    rw [valuesAreValid_eq_all]
    refine List.all_eq_false.mpr ⟨c, hc, ?_⟩
    simp only [fEq, hcp, Nat.zero_mod, one_mod_pBLS, Bool.or_eq_true, beq_iff_eq]
    rintro (rfl | rfl)
    · exact hc0 rfl
    · exact hc1 rfl
  rw [hv]
  simp

/-- Witness for C2: the board `[2,0,0,0,0,0,0,0,0]` leaves the circuit
unsatisfied both with `ships = 1` and with `ships = 0`. -/
theorem range_check_soundness_witness :
    (generate_constraints (fun v r => v :: r) id
      ⟨1, 9, List.zipWith (fun v r => v :: r) (2 :: List.replicate 8 0) (List.replicate 9 []),
        some (2 :: List.replicate 8 0), some (List.replicate 9 [])⟩).map Prod.fst = some false
    ∧ (generate_constraints (fun v r => v :: r) id
      ⟨0, 9, List.zipWith (fun v r => v :: r) (2 :: List.replicate 8 0) (List.replicate 9 []),
        some (2 :: List.replicate 8 0), some (List.replicate 9 [])⟩).map Prod.fst = some false := by
  constructor
  · exact range_check_soundness _ _ _ (2 :: List.replicate 8 0) (List.replicate 9 [])
      rfl rfl (by decide) (by decide) (by decide) ⟨2, by decide, by decide, by decide⟩
  · exact range_check_soundness _ _ _ (2 :: List.replicate 8 0) (List.replicate 9 [])
      rfl rfl (by decide) (by decide) (by decide) ⟨2, by decide, by decide, by decide⟩

/-- C3: sum-check soundness.  Whenever the declared `ships` differs from the
arithmetic sum of the witnessed board's cells, the constraint system is
unsatisfied.  The `u8` bounds on the cells and the `usize` bound on the
vector length keep the sum below the field order, so field equality is exact
equality. -/
theorem sum_check_soundness (commit : Nat → List Nat → List Nat)
    (tfe : List Nat → List Nat) (bv : BoardVerifier) (board : List Nat)
    (rng : List (List Nat))
    (hb : bv.board = some board) (hr : bv.rng_in = some rng)
    (h1 : board.length ≤ rng.length) (h2 : board.length ≤ bv.commitments.length)
    (hships : bv.ships < 256)
    (hu8 : ∀ c ∈ board, c < 256)
    (hlen64 : board.length < 2 ^ 64)
    (hne : bv.ships ≠ board.sum) :
    (generate_constraints commit tfe bv).map Prod.fst = some false := by
  have hslt : board.sum < pBLS := sum_lt_pBLS board hu8 hlen64
  have hshlt : bv.ships < pBLS := lt_trans hships pBLS_gt_256
  simp only [generate_constraints, hb, hr]
  rw [if_pos ⟨h1, h2⟩]
  simp only [Option.map_some', Option.some.injEq]
  have hs : fEq bv.ships (boardSumF board) = false := by
    rw [boardSumF_eq]
    simp only [fEq, Nat.mod_eq_of_lt hslt, Nat.mod_eq_of_lt hshlt,
      beq_eq_false_iff_ne, ne_eq]
    intro h
    exact hne (by omega)
  rw [hs]
  simp

/-- Witness for C3: the board `[1,1,1,0,0,0,0,0,0]` with declared
`ships = 4` leaves the circuit unsatisfied; the same board with `ships = 3`
satisfies it (computed directly). -/
theorem sum_check_soundness_witness :
    (generate_constraints (fun v r => v :: r) id
      ⟨4, 9, List.zipWith (fun v r => v :: r) [1, 1, 1, 0, 0, 0, 0, 0, 0] (List.replicate 9 []),
        some [1, 1, 1, 0, 0, 0, 0, 0, 0], some (List.replicate 9 [])⟩).map Prod.fst = some false
    ∧ (generate_constraints (fun v r => v :: r) id
      ⟨3, 9, List.zipWith (fun v r => v :: r) [1, 1, 1, 0, 0, 0, 0, 0, 0] (List.replicate 9 []),
        some [1, 1, 1, 0, 0, 0, 0, 0, 0], some (List.replicate 9 [])⟩).map Prod.fst = some true := by
  constructor
  · exact sum_check_soundness _ _ _ [1, 1, 1, 0, 0, 0, 0, 0, 0] (List.replicate 9 [])
      rfl rfl (by decide) (by decide) (by decide) (by decide) (by decide) (by decide)
  · decide

/-- C4: size-check soundness.  Whenever the declared `b_size` differs from
the length of the witnessed board, the constraint system is unsatisfied. -/
theorem size_check_soundness (commit : Nat → List Nat → List Nat)
    (tfe : List Nat → List Nat) (bv : BoardVerifier) (board : List Nat)
    (rng : List (List Nat))
    (hb : bv.board = some board) (hr : bv.rng_in = some rng)
    (h1 : board.length ≤ rng.length) (h2 : board.length ≤ bv.commitments.length)
    (hbsize : bv.b_size < 256)
    (hlen64 : board.length < 2 ^ 64)
    (hne : bv.b_size ≠ board.length) :
    (generate_constraints commit tfe bv).map Prod.fst = some false := by
  have hllt : board.length < pBLS := by
    have h : (2 : Nat) ^ 64 < pBLS := by decide
    omega
  have hblt : bv.b_size < pBLS := lt_trans hbsize pBLS_gt_256
  simp only [generate_constraints, hb, hr]
  rw [if_pos ⟨h1, h2⟩]
  simp only [Option.map_some', Option.some.injEq]
  have hz : fEq bv.b_size (boardLenF board) = false := by
    rw [boardLenF_eq]
    simp only [fEq, Nat.mod_eq_of_lt hllt, Nat.mod_eq_of_lt hblt,
      beq_eq_false_iff_ne, ne_eq]
    intro h
    exact hne (by omega)
  rw [hz]
  simp

/-- Witness for C4: a 9-cell board with declared `b_size = 10` leaves the
circuit unsatisfied. -/
theorem size_check_soundness_witness :
    (generate_constraints (fun v r => v :: r) id
      ⟨3, 10, List.zipWith (fun v r => v :: r) [1, 1, 1, 0, 0, 0, 0, 0, 0] (List.replicate 9 []),
        some [1, 1, 1, 0, 0, 0, 0, 0, 0], some (List.replicate 9 [])⟩).map Prod.fst = some false :=
  size_check_soundness _ _ _ [1, 1, 1, 0, 0, 0, 0, 0, 0] (List.replicate 9 [])
    rfl rfl (by decide) (by decide) (by decide) (by decide) (by decide)

theorem getD_map_range (f : Nat → List Nat) (n t : Nat) (h : t < n) :
    ((List.range n).map f).getD t [] = f t := by
  rw [List.getD_eq_getElem _ _ (by simpa using h)]
  simp

/-- C5: move-verification opening check.  `verify_move` accepts (the game
proceeds) exactly when the recomputed commitment of the revealed pair equals
the stored digest byte-for-byte, rejects (the game ends, attacker wins)
exactly when it differs, and the true pair committed by
`generate_commitments` at setup always passes. -/
theorem verify_move_opening (commit : Nat → List Nat → List Nat) (v : Nat)
    (r c : List Nat) (hr : r.length = 32) (hc : c.length = 32) :
    (verify_move commit v r c = some true ↔ commit v r = c)
    ∧ (verify_move commit v r c = some false ↔ commit v r ≠ c)
    ∧ ∀ (board : List Nat) (randomness comms : List (List Nat)) (t : Nat),
        generate_commitments commit board randomness = some comms →
        t < board.length →
        (commit (board.getD t 0) (randomness.getD t [])).length = 32 →
        verify_move commit (board.getD t 0) (randomness.getD t [])
          (comms.getD t []) = some true := by
  refine ⟨?_, ?_, ?_⟩
  · unfold verify_move
    rw [if_pos ⟨hr, hc⟩]
    simp
  · unfold verify_move
    rw [if_pos ⟨hr, hc⟩]
    simp
  · intro board randomness comms t hgen ht hdig
    simp only [generate_commitments] at hgen
    split_ifs at hgen with hcond
    obtain ⟨hle, hall⟩ := hcond
    obtain rfl : comms = (List.range board.length).map
        (fun i => commit (board.getD i 0) (randomness.getD i [])) :=
      (Option.some.injEq _ _ ▸ hgen).symm
    rw [getD_map_range _ _ _ ht]
    unfold verify_move
    rw [if_pos ⟨hall t ht, hdig⟩]
    simp

/-- Witness for C5: with a concrete stand-in commitment function, revealing
the committed value passes and revealing a different value is rejected. -/
theorem verify_move_opening_witness :
    verify_move (fun v r => v :: r.tail) 1 (List.replicate 32 0)
      (1 :: List.replicate 31 0) = some true
    ∧ verify_move (fun v r => v :: r.tail) 0 (List.replicate 32 0)
      (1 :: List.replicate 31 0) = some false := by
  constructor
  · exact (verify_move_opening _ 1 _ _ (by decide) (by decide)).1.mpr (by decide)
  · exact (verify_move_opening _ 0 _ _ (by decide) (by decide)).2.1.mpr (by decide)

/-- Counterexample to C6 as stated: with both players' proof verifications
returning `false`, `main` still reaches the turn loop — the game does not
refuse to proceed to the play phase. -/
theorem main_enters_play_despite_invalid_proofs :
    GameEvent.enteredPlayLoop ∈ main_setup_flow false false := by decide

/-- C6 amended: `main` surfaces each verification result only as a printed
message and enters the play loop unconditionally, whatever the two
verification results are. -/
theorem main_always_enters_play (res_a res_b : Bool) :
    GameEvent.enteredPlayLoop ∈ main_setup_flow res_a res_b := by
  cases res_a <;> cases res_b <;> decide

/-- Counterexample to C7 as stated: two ships on a fresh 2-cell board with
the same target `0` twice leaves a single ship on the board, not
`num_ships = 2`. -/
theorem place_battleships_repeat_target_cex :
    place_battleships [0, 0] [0, 0] 2 = some [1, 0]
    ∧ List.count 1 [1, 0] ≠ 2 := by decide

theorem count_one_set (l : List Nat) (i : Nat) (h : i < l.length)
    (h0 : l.get ⟨i, h⟩ ≠ 1) :
    (l.set i 1).count 1 = l.count 1 + 1 := by
  induction l generalizing i with
  | nil => simp at h
  | cons x xs ih =>
    match i with
    | 0 =>
      have hx : ¬ (x == 1) = true := by simpa using h0
      simp [List.count_cons, hx]
    | j + 1 =>
      have hj : j < xs.length := Nat.lt_of_succ_lt_succ h
      have hrec := ih j hj (by simpa using h0)
      simp only [List.set, List.count_cons, hrec]
      omega

theorem getD_set_ne_zero (l : List Nat) (i j : Nat) (hij : i ≠ j) :
    (l.set i 1).getD j 0 = l.getD j 0 := by
  simp [List.getD_eq_getElem?_getD, List.getElem?_set_ne hij]

/-- C7 amended: `place_battleships` places exactly `num_ships` ships only
when the `num_ships` supplied targets are pairwise distinct, in range, and
aim at empty cells (as on the fresh all-zero boards of `main`); a repeated,
occupied, or out-of-range target silently consumes the ship, so in general
the board can end up with fewer than `num_ships` ships. -/
theorem place_battleships_distinct_exact (board : List Nat) (targets : List Nat)
    (hnd : targets.Nodup)
    (hval : ∀ t ∈ targets, t < board.length ∧ board.getD t 0 = 0) :
    ∃ b', place_battleships board targets targets.length = some b'
      ∧ b'.count 1 = board.count 1 + targets.length := by
  induction targets generalizing board with
  | nil => exact ⟨board, rfl, by simp⟩
  | cons t rest ih =>
    obtain ⟨hlt, hz⟩ := hval t (List.mem_cons_self t rest)
    have hnotgt : ¬ t > board.length := by omega
    have hget : board.get ⟨t, hlt⟩ = 0 := by
      rw [List.get_eq_getElem, ← List.getD_eq_getElem _ 0 hlt]
      exact hz
    have hval2 : ∀ u ∈ rest, u < (board.set t 1).length ∧ (board.set t 1).getD u 0 = 0 := by
      intro u hu
      obtain ⟨hu1, hu2⟩ := hval u (List.mem_cons_of_mem t hu)
      refine ⟨by simpa using hu1, ?_⟩
      have hne : t ≠ u := fun he => (List.nodup_cons.mp hnd).1 (he ▸ hu)
      rw [getD_set_ne_zero board t u hne]
      exact hu2
    obtain ⟨b', hb', hcount⟩ := ih (board.set t 1) (List.Nodup.of_cons hnd) hval2
    refine ⟨b', ?_, ?_⟩
    · rw [List.length_cons]
      simp only [place_battleships]
      rw [if_neg hnotgt, dif_pos hlt, if_pos hget]
      exact hb'
    · have hget1 : board.get ⟨t, hlt⟩ ≠ 1 := by rw [hget]; decide
      rw [hcount, count_one_set board t hlt hget1]
      simp only [List.length_cons]
      omega

/-- Witness for C7's amended theorem: two distinct in-range targets on the
all-zero 3-cell board place exactly two ships. -/
theorem place_battleships_distinct_exact_witness :
    ∃ b', place_battleships [0, 0, 0] [2, 0] ([2, 0] : List Nat).length = some b'
      ∧ b'.count 1 = List.count 1 [0, 0, 0] + ([2, 0] : List Nat).length :=
  place_battleships_distinct_exact [0, 0, 0] [2, 0] (by decide) (by decide)

/-- C8: repeat-attack rejection and frame.  When the attacked tile's
view-board entry is not 0 (unknown), `perform_turn` returns before the
hit/miss logic: the defender's board and the view board come back unchanged,
`verify_move` is not invoked (flag `false`), and the outcome is
`alreadyAttacked`; the randomness and commitment tables are taken by
immutable reference and are never written. -/
theorem perform_turn_repeat_rejection_frame (commit : Nat → List Nat → List Nat)
    (p_board view_board : List Nat) (rand comms : List (List Nat)) (t : Nat)
    (ht : t < view_board.length) (hne : view_board.get ⟨t, ht⟩ ≠ 0) :
    perform_turn commit p_board view_board rand comms t =
      some (p_board, view_board, false, TurnOutcome.alreadyAttacked) := by
  unfold perform_turn
  rw [dif_pos ht, if_pos hne]

/-- Witness for C8: re-attacking tile 1, already marked 1 on the view board,
is rejected with everything unchanged and no commitment check. -/
theorem perform_turn_repeat_rejection_frame_witness :
    perform_turn (fun v r => v :: r) [1, 0] [0, 1] [[], []] [[], []] 1 =
      some ([1, 0], [0, 1], false, TurnOutcome.alreadyAttacked) :=
  perform_turn_repeat_rejection_frame _ [1, 0] [0, 1] [[], []] [[], []] 1
    (by decide) (by decide)

/-- C9: public-input encoding order.  The public-input vector that
`verify_initial_proof` hands to proof verification — `ships` first, then
`b_size`, then each commitment's field-element packing in board order — is
exactly the sequence of public inputs allocated by `generate_constraints` at
proving time, with no omission or reordering. -/
theorem public_input_order_agreement (commit : Nat → List Nat → List Nat)
    (tfe : List Nat → List Nat) (bv : BoardVerifier) (board : List Nat)
    (rng : List (List Nat))
    (hb : bv.board = some board) (hr : bv.rng_in = some rng)
    (h1 : board.length ≤ rng.length) (h2 : board.length ≤ bv.commitments.length) :
    (generate_constraints commit tfe bv).map Prod.snd =
      some (verify_initial_proof_inputs tfe bv.commitments bv.ships bv.b_size) := by
  simp only [generate_constraints, hb, hr]
  rw [if_pos ⟨h1, h2⟩]
  simp only [Option.map_some', Option.some.injEq]
  rw [verify_initial_proof_inputs, foldl_append_flatten]
  rfl

/-- Witness for C9 on a concrete instance with two commitments. -/
theorem public_input_order_agreement_witness :
    (generate_constraints (fun v r => v :: r) id
      ⟨3, 9, [[5, 6], [7]], some [1], some [[]]⟩).map Prod.snd =
      some (verify_initial_proof_inputs id [[5, 6], [7]] 3 9) :=
  public_input_order_agreement _ _ _ [1] [[]] rfl rfl (by decide) (by decide)

/-- C10: tile-index bounds at the input boundary.  `place_battleships`'s
guard only rejects `target > board.len()`, so a target equal to the board
length reaches `board[target]` and panics; and `perform_turn` indexes
`view_board[t]` with no bounds check at all, so a tile index equal to the
view-board length panics.  Both out-of-range branches are reachable from
user-supplied input. -/
theorem tile_index_out_of_bounds :
    (∀ (board rest : List Nat) (n : Nat),
        place_battleships board (board.length :: rest) (n + 1) = none)
    ∧ (∀ (commit : Nat → List Nat → List Nat) (p_board view_board : List Nat)
        (rand comms : List (List Nat)),
        perform_turn commit p_board view_board rand comms view_board.length = none) := by
  constructor
  · intro board rest n
    simp only [place_battleships]
    rw [if_neg (by omega : ¬ board.length > board.length),
      dif_neg (by omega : ¬ board.length < board.length)]
  · intro commit p_board view_board rand comms
    unfold perform_turn
    rw [dif_neg (by omega : ¬ view_board.length < view_board.length)]

end ZkBattleship
